import Mathlib

/-!
Verification of the camera / interpolation core of the `zoomer` screen-magnifier.

The Rust source (`src/camera.rs`, `src/interpolation/mod.rs`,
`src/interpolation/interpolators.rs`) works over `f32`; we embed it over an
arbitrary `LinearOrderedField K` (instantiated at `ℚ` for concrete witnesses)
wherever only field and order operations occur, and over `ℝ` (with `Real.rpow`)
for the exponential-smoothing interpolator whose formula uses `powf`.

`f32::clamp` panics when `min > max`; we model that panic with `Option`
(`f32clamp` below), so `Camera.zoom`, which calls it, is `Option`-valued.
`nalgebra`'s `clamp` (used by `clamp_me_daddy` via `clamp_vec`) does not panic;
it is the branch-for-branch total function `glmClamp`.
-/

namespace Zoomer

/-- 2D vector, modelling `nalgebra_glm::Vec2` with `f32` idealised as a field. -/
structure Vec2 (K : Type) where
  x : K
  y : K
deriving DecidableEq, Repr

namespace Vec2

variable {K : Type} [LinearOrderedField K]

instance : Add (Vec2 K) := ⟨fun a b => ⟨a.x + b.x, a.y + b.y⟩⟩

instance : Sub (Vec2 K) := ⟨fun a b => ⟨a.x - b.x, a.y - b.y⟩⟩

instance : Neg (Vec2 K) := ⟨fun a => ⟨-a.x, -a.y⟩⟩

instance : Zero (Vec2 K) := ⟨⟨0, 0⟩⟩

/-- Vector-times-scalar (`Vec2 * f32` in nalgebra). -/
def smul (v : Vec2 K) (k : K) : Vec2 K := ⟨v.x * k, v.y * k⟩

/-- Vector-divided-by-scalar (`Vec2 / f32` in nalgebra). -/
def sdiv (v : Vec2 K) (k : K) : Vec2 K := ⟨v.x / k, v.y / k⟩

@[simp] theorem add_x (a b : Vec2 K) : (a + b).x = a.x + b.x := rfl

@[simp] theorem add_y (a b : Vec2 K) : (a + b).y = a.y + b.y := rfl

@[simp] theorem sub_x (a b : Vec2 K) : (a - b).x = a.x - b.x := rfl

@[simp] theorem sub_y (a b : Vec2 K) : (a - b).y = a.y - b.y := rfl

@[simp] theorem neg_x (a : Vec2 K) : (-a).x = -a.x := rfl

@[simp] theorem neg_y (a : Vec2 K) : (-a).y = -a.y := rfl

@[simp] theorem smul_x (a : Vec2 K) (k : K) : (a.smul k).x = a.x * k := rfl

@[simp] theorem smul_y (a : Vec2 K) (k : K) : (a.smul k).y = a.y * k := rfl

@[simp] theorem sdiv_x (a : Vec2 K) (k : K) : (a.sdiv k).x = a.x / k := rfl

@[simp] theorem sdiv_y (a : Vec2 K) (k : K) : (a.sdiv k).y = a.y / k := rfl

omit [LinearOrderedField K] in
@[ext] theorem ext {a b : Vec2 K} (hx : a.x = b.x) (hy : a.y = b.y) : a = b := by
  cases a; cases b; simp_all

end Vec2

/-- Linear interpolation `glm::lerp(a, b, t) = a + (b - a) * t` on scalars. -/
def lerp {K : Type} [LinearOrderedField K] (a b t : K) : K := a + (b - a) * t

/-- Componentwise `glm::lerp` on `Vec2`. -/
def lerpV {K : Type} [LinearOrderedField K] (a b : Vec2 K) (t : K) : Vec2 K :=
  ⟨lerp a.x b.x t, lerp a.y b.y t⟩

/-- `nalgebra`'s `clamp(value, min, max)`: branch-for-branch
`if value < min { min } else if value > max { max } else { value }` (no panic). -/
def glmClamp {K : Type} [LinearOrderedField K] (value lo hi : K) : K :=
  if value < lo then lo else if value > hi then hi else value

/-- `nalgebra_glm::clamp_vec`: componentwise `glmClamp`. -/
def clamp_vec {K : Type} [LinearOrderedField K] (v lo hi : Vec2 K) : Vec2 K :=
  ⟨glmClamp v.x lo.x hi.x, glmClamp v.y lo.y hi.y⟩

/-- `f32::clamp(self, min, max)`: asserts `min <= max` (panic modelled as `none`),
then `if self < min { min } else if self > max { max } else { self }`. -/
def f32clamp {K : Type} [LinearOrderedField K] (x lo hi : K) : Option K :=
  if lo ≤ hi then some (if x < lo then lo else if x > hi then hi else x) else none

/-- `ExponentialSmoothing { length_sec, exp_rate }` from `interpolators.rs`. -/
structure ExponentialSmoothing (K : Type) where
  length_sec : K
  exp_rate : K
deriving DecidableEq, Repr

namespace ExponentialSmoothing

/-- `ExponentialSmoothing::new`. -/
def new {K : Type} (length_sec exp_rate : K) : ExponentialSmoothing K :=
  { length_sec := length_sec, exp_rate := exp_rate }

/-- The lerp weight `1 - (1 / 10^exp_rate)^(dt / length_sec)` from
`ExponentialSmoothing::interpolate` (`powf` embedded as `Real.rpow`). -/
noncomputable def factor (e : ExponentialSmoothing ℝ) (dt : ℝ) : ℝ :=
  1 - Real.rpow (1 / Real.rpow 10 e.exp_rate) (dt / e.length_sec)

/-- Scalar `ExponentialSmoothing::interpolate`: `lerp(current, target, factor dt)`.
The trait method takes `&mut self` but mutates nothing, so we return only the value. -/
noncomputable def interpolate (e : ExponentialSmoothing ℝ) (current target dt : ℝ) : ℝ :=
  lerp current target (e.factor dt)

/-- Vector `ExponentialSmoothing::interpolate` (componentwise `glm::lerp`). -/
noncomputable def interpolateV (e : ExponentialSmoothing ℝ) (current target : Vec2 ℝ) (dt : ℝ) : Vec2 ℝ :=
  lerpV current target (e.factor dt)

/-- Step function packaging `interpolate` for the generic `update` (state unchanged). -/
noncomputable def stepS (e : ExponentialSmoothing ℝ) (current target dt : ℝ) :
    ExponentialSmoothing ℝ × ℝ :=
  (e, e.interpolate current target dt)

/-- Step function packaging `interpolateV` for the generic vector `update`. -/
noncomputable def stepV (e : ExponentialSmoothing ℝ) (current target : Vec2 ℝ) (dt : ℝ) :
    ExponentialSmoothing ℝ × Vec2 ℝ :=
  (e, e.interpolateV current target dt)

end ExponentialSmoothing

/-- `LinearInterpolation { k, time }` from `interpolators.rs`. -/
structure LinearInterpolation (K : Type) where
  k : K
  time : K
deriving DecidableEq, Repr

namespace LinearInterpolation

/-- `LinearInterpolation::new(length_sec)`: `k = 1/length_sec`, `time = 0`. -/
def new {K : Type} [LinearOrderedField K] (length_sec : K) : LinearInterpolation K :=
  { k := 1 / length_sec, time := 0 }

/-- Scalar `LinearInterpolation::interpolate`: `self.time += dt` then
`lerp(current, target, k * time)`; we return the mutated state with the value. -/
def interpolate {K : Type} [LinearOrderedField K] (li : LinearInterpolation K)
    (current target dt : K) : LinearInterpolation K × K :=
  let t := li.time + dt
  ({ k := li.k, time := t }, lerp current target (li.k * t))

/-- Vector `LinearInterpolation::interpolate` (componentwise `glm::lerp`). -/
def interpolateV {K : Type} [LinearOrderedField K] (li : LinearInterpolation K)
    (current target : Vec2 K) (dt : K) : LinearInterpolation K × Vec2 K :=
  let t := li.time + dt
  ({ k := li.k, time := t }, lerpV current target (li.k * t))

end LinearInterpolation

/-- `InterpolatedVector` from `interpolation/mod.rs`, at dimension 2.
`I` is the interpolator state type (strategy pattern). -/
structure InterpolatedVector (K I : Type) where
  current : Vec2 K
  target : Vec2 K
  interpolator : I
deriving DecidableEq, Repr

namespace InterpolatedVector

variable {K I : Type} [LinearOrderedField K]

/-- `InterpolatedVector::new`: `current = target = initial`. -/
def new (initial : Vec2 K) (interpolator : I) : InterpolatedVector K I :=
  { current := initial, target := initial, interpolator := interpolator }

/-- `InterpolatedVector::new_zeroed`. -/
def new_zeroed (interpolator : I) : InterpolatedVector K I :=
  new 0 interpolator

/-- `InterpolatedVector::set_target`: pure assignment of `target`. -/
def set_target (s : InterpolatedVector K I) (target : Vec2 K) : InterpolatedVector K I :=
  { s with target := target }

/-- `InterpolatedVector::update`: `current = interpolator.interpolate(current, target, dt)`.
`step` is the interpolator's trait method (returning also its updated state). -/
def update (step : I → Vec2 K → Vec2 K → K → I × Vec2 K)
    (s : InterpolatedVector K I) (dt : K) : InterpolatedVector K I :=
  let p := step s.interpolator s.current s.target dt
  { current := p.2, target := s.target, interpolator := p.1 }

end InterpolatedVector

/-- `InterpolatedScalar` from `interpolation/mod.rs` (the 1-dimensional case,
unwrapped to a plain scalar). -/
structure InterpolatedScalar (K I : Type) where
  current : K
  target : K
  interpolator : I
deriving DecidableEq, Repr

namespace InterpolatedScalar

variable {K I : Type} [LinearOrderedField K]

/-- `InterpolatedScalar::new`. -/
def new (initial : K) (interpolator : I) : InterpolatedScalar K I :=
  { current := initial, target := initial, interpolator := interpolator }

/-- `InterpolatedScalar::new_zeroed`. -/
def new_zeroed (interpolator : I) : InterpolatedScalar K I :=
  new 0 interpolator

/-- `InterpolatedScalar::set_target`. -/
def set_target (s : InterpolatedScalar K I) (target : K) : InterpolatedScalar K I :=
  { s with target := target }

/-- `InterpolatedScalar::update`. -/
def update (step : I → K → K → K → I × K)
    (s : InterpolatedScalar K I) (dt : K) : InterpolatedScalar K I :=
  let p := step s.interpolator s.current s.target dt
  { current := p.2, target := s.target, interpolator := p.1 }

end InterpolatedScalar

/-- `Camera` from `camera.rs`. `zoom_range` is the `RangeInclusive<f32>` as a pair
`(start, end)`. -/
structure Camera (K : Type) where
  position : InterpolatedVector K (ExponentialSmoothing K)
  zoom_factor : InterpolatedScalar K (ExponentialSmoothing K)
  zoom_range : K × K
  position_range : Vec2 K
deriving DecidableEq, Repr

namespace Camera

variable {K : Type} [LinearOrderedField K]

/-- `Camera::new`: zeroed position, zoom 1, smoothing constants
`LENGTH = 0.5`, `RATE = 2.5`. -/
def new (zoom_range : K × K) (position_range : Vec2 K) : Camera K :=
  { position := InterpolatedVector.new_zeroed (ExponentialSmoothing.new (1 / 2) (5 / 2))
    zoom_factor := InterpolatedScalar.new 1 (ExponentialSmoothing.new (1 / 2) (5 / 2))
    zoom_range := zoom_range
    position_range := position_range }

/-- `Camera::translate`: `position.set_target(position.target() + translation)`. -/
def translate (c : Camera K) (translation : Vec2 K) : Camera K :=
  { c with position := c.position.set_target (c.position.target + translation) }

/-- `Camera::world_to_camera_space`: `world_coords * zoom_factor.current()`. -/
def world_to_camera_space (c : Camera K) (world_coords : Vec2 K) : Vec2 K :=
  world_coords.smul c.zoom_factor.current

/-- `Camera::camera_to_world_space`: `camera_coords / zoom_factor.current()`. -/
def camera_to_world_space (c : Camera K) (camera_coords : Vec2 K) : Vec2 K :=
  camera_coords.sdiv c.zoom_factor.current

/-- `Camera::clamp_me_daddy`: clamp `position.target` into
`±world_to_camera_space(position_range)`. -/
def clamp_me_daddy (c : Camera K) : Camera K :=
  let camera_position_range := c.world_to_camera_space c.position_range
  { c with
    position :=
      c.position.set_target
        (clamp_vec c.position.target (-camera_position_range) camera_position_range) }

/-- `Camera::zoom`: clamp the new zoom target into `zoom_range` (`f32::clamp`,
panic on an empty range modelled by `none`), recompute the effective multiplier,
set the zoom target, and translate to keep `screen_point` fixed. -/
def zoom (c : Camera K) (zoom_multiplier : K) (screen_point : Vec2 K) :
    Option (Camera K) :=
  (f32clamp (c.zoom_factor.target * zoom_multiplier) c.zoom_range.1 c.zoom_range.2).map
    fun new_zoom_factor =>
      let m := new_zoom_factor / c.zoom_factor.target
      let c1 := { c with zoom_factor := c.zoom_factor.set_target new_zoom_factor }
      let point := screen_point - c1.position.target
      c1.translate (point - point.smul m)

/-- `Camera::update`: advance `zoom_factor` then `position`. -/
noncomputable def update (c : Camera ℝ) (dt : ℝ) : Camera ℝ :=
  let c1 := { c with zoom_factor := c.zoom_factor.update ExponentialSmoothing.stepS dt }
  { c1 with position := c1.position.update ExponentialSmoothing.stepV dt }

/-- `Camera::screen_to_camera_space`: `screen_coords - position.current()`. -/
def screen_to_camera_space (c : Camera K) (screen_coords : Vec2 K) : Vec2 K :=
  screen_coords - c.position.current

/-- `Camera::screen_to_world_space`: `screen_to_camera_space / zoom_factor.current()`. -/
def screen_to_world_space (c : Camera K) (screen_coords : Vec2 K) : Vec2 K :=
  (c.screen_to_camera_space screen_coords).sdiv c.zoom_factor.current

/-- Fold a list of `zoom` calls (multiplier, screen point), propagating the panic. -/
def applyZooms (c : Camera K) : List (K × Vec2 K) → Option (Camera K)
  | [] => some c
  | op :: rest =>
    match c.zoom op.1 op.2 with
    | none => none
    | some c1 => c1.applyZooms rest

end Camera

end Zoomer


namespace Zoomer

/-! ### Helper lemmas -/

theorem glmClamp_mem {K : Type} [LinearOrderedField K] {lo hi : K} (h : lo ≤ hi) (x : K) :
    lo ≤ glmClamp x lo hi ∧ glmClamp x lo hi ≤ hi := by
  unfold glmClamp
  split_ifs <;> constructor <;> linarith

theorem glmClamp_pos {K : Type} [LinearOrderedField K] {lo hi : K} (hlo : 0 < lo)
    (hle : lo ≤ hi) (x : K) : 0 < glmClamp x lo hi := by
  unfold glmClamp
  split_ifs <;> linarith

theorem glmClamp_idem {K : Type} [LinearOrderedField K] {lo hi : K} (h : lo ≤ hi) (x : K) :
    glmClamp (glmClamp x lo hi) lo hi = glmClamp x lo hi := by
  unfold glmClamp
  split_ifs <;> first | rfl | linarith

/-- The camera a successful `Camera.zoom` produces (the body of the `map`). -/
def Camera.zoomResult {K : Type} [LinearOrderedField K] (c : Camera K)
    (zoom_multiplier : K) (screen_point : Vec2 K) : Camera K :=
  let new_zoom_factor :=
    glmClamp (c.zoom_factor.target * zoom_multiplier) c.zoom_range.1 c.zoom_range.2
  let m := new_zoom_factor / c.zoom_factor.target
  let c1 := { c with zoom_factor := c.zoom_factor.set_target new_zoom_factor }
  let point := screen_point - c1.position.target
  c1.translate (point - point.smul m)

theorem Camera.zoom_eq_of_le {K : Type} [LinearOrderedField K] {c : Camera K}
    (hle : c.zoom_range.1 ≤ c.zoom_range.2) (m : K) (s : Vec2 K) :
    c.zoom m s = some (c.zoomResult m s) := by
  unfold Camera.zoom f32clamp
  rw [if_pos hle]
  rfl

/-- Destructor for a successful `Camera.zoom`: the range is non-empty and the
result is `zoomResult`. -/
theorem Camera.zoom_some_elim {K : Type} [LinearOrderedField K] {c c' : Camera K}
    {m : K} {s : Vec2 K} (h : c.zoom m s = some c') :
    c.zoom_range.1 ≤ c.zoom_range.2 ∧ c' = c.zoomResult m s := by
  by_cases hle : c.zoom_range.1 ≤ c.zoom_range.2
  · rw [Camera.zoom_eq_of_le hle] at h
    simp only [Option.some.injEq] at h
    exact ⟨hle, h.symm⟩
  · exfalso
    unfold Camera.zoom f32clamp at h
    rw [if_neg hle] at h
    simp at h

theorem Camera.zoomResult_position_current {K : Type} [LinearOrderedField K]
    (c : Camera K) (m : K) (s : Vec2 K) :
    (c.zoomResult m s).position.current = c.position.current := rfl

theorem Camera.zoomResult_zoom_current {K : Type} [LinearOrderedField K]
    (c : Camera K) (m : K) (s : Vec2 K) :
    (c.zoomResult m s).zoom_factor.current = c.zoom_factor.current := rfl

theorem Camera.zoomResult_zoom_range {K : Type} [LinearOrderedField K]
    (c : Camera K) (m : K) (s : Vec2 K) :
    (c.zoomResult m s).zoom_range = c.zoom_range := rfl

theorem Camera.zoomResult_position_range {K : Type} [LinearOrderedField K]
    (c : Camera K) (m : K) (s : Vec2 K) :
    (c.zoomResult m s).position_range = c.position_range := rfl

theorem Camera.zoomResult_zoom_target {K : Type} [LinearOrderedField K]
    (c : Camera K) (m : K) (s : Vec2 K) :
    (c.zoomResult m s).zoom_factor.target
      = glmClamp (c.zoom_factor.target * m) c.zoom_range.1 c.zoom_range.2 := rfl

theorem Camera.zoomResult_position_target {K : Type} [LinearOrderedField K]
    (c : Camera K) (m : K) (s : Vec2 K) :
    (c.zoomResult m s).position.target
      = c.position.target +
          ((s - c.position.target) -
            (s - c.position.target).smul
              (glmClamp (c.zoom_factor.target * m) c.zoom_range.1 c.zoom_range.2 /
                c.zoom_factor.target)) := rfl

/-! ### Claims -/

/-- C7: for every camera state and deltas `a`, `b`, `translate(a); translate(b)`
yields the same `position.target()` as the single call `translate(a+b)`. -/
theorem translate_additive {K : Type} [LinearOrderedField K] (c : Camera K) (a b : Vec2 K) :
    ((c.translate a).translate b).position.target
      = (c.translate (a + b)).position.target := by
  ext <;> simp [Camera.translate, InterpolatedVector.set_target, add_assoc]

/-- C8: `screen_to_camera_space(p) + position.current()` recovers `p` exactly, and
`screen_to_world_space(p) * zoom_factor.current() + position.current()` recovers `p`
given positive `zoom_factor.current()`. -/
theorem screen_space_round_trip {K : Type} [LinearOrderedField K] (c : Camera K)
    (p : Vec2 K) (h : 0 < c.zoom_factor.current) :
    c.screen_to_camera_space p + c.position.current = p ∧
    (c.screen_to_world_space p).smul c.zoom_factor.current + c.position.current = p := by
  have hz : c.zoom_factor.current ≠ 0 := ne_of_gt h
  constructor <;> ext <;>
    simp [Camera.screen_to_world_space, Camera.screen_to_camera_space,
      Vec2.smul, Vec2.sdiv] <;>
    field_simp

theorem screen_space_round_trip_witness :
    (0 < (Camera.new ((1 : ℚ)/2, 10) ⟨1, 1⟩).zoom_factor.current) ∧
    ((Camera.new ((1 : ℚ)/2, 10) ⟨1, 1⟩).screen_to_camera_space ⟨3, 4⟩ +
        (Camera.new ((1 : ℚ)/2, 10) ⟨1, 1⟩).position.current = ⟨3, 4⟩ ∧
      ((Camera.new ((1 : ℚ)/2, 10) ⟨1, 1⟩).screen_to_world_space ⟨3, 4⟩).smul
          (Camera.new ((1 : ℚ)/2, 10) ⟨1, 1⟩).zoom_factor.current +
        (Camera.new ((1 : ℚ)/2, 10) ⟨1, 1⟩).position.current = ⟨3, 4⟩) :=
  ⟨by norm_num [Camera.new, InterpolatedScalar.new],
    screen_space_round_trip (Camera.new ((1 : ℚ)/2, 10) ⟨1, 1⟩) ⟨3, 4⟩
      (by norm_num [Camera.new, InterpolatedScalar.new])⟩

/-- C9: `translate` and `zoom` mutate only targets (`position.current`,
`zoom_factor.current`, `zoom_range`, `position_range` are unchanged), and
`set_target` on an interpolated value leaves `current` unchanged. -/
theorem mutators_leave_current_unchanged {K I : Type} [LinearOrderedField K]
    (c c' : Camera K) (t : Vec2 K) (m : K) (s : Vec2 K)
    (sv : InterpolatedVector K I) (ss : InterpolatedScalar K I) (v : Vec2 K) (w : K) :
    ((c.translate t).position.current = c.position.current ∧
      (c.translate t).zoom_factor.current = c.zoom_factor.current ∧
      (c.translate t).zoom_range = c.zoom_range ∧
      (c.translate t).position_range = c.position_range) ∧
    (c.zoom m s = some c' →
      c'.position.current = c.position.current ∧
      c'.zoom_factor.current = c.zoom_factor.current ∧
      c'.zoom_range = c.zoom_range ∧
      c'.position_range = c.position_range) ∧
    ((sv.set_target v).current = sv.current ∧ (ss.set_target w).current = ss.current) := by
  refine ⟨⟨rfl, rfl, rfl, rfl⟩, ?_, rfl, rfl⟩
  intro h
  obtain ⟨-, rfl⟩ := Camera.zoom_some_elim h
  exact ⟨rfl, rfl, rfl, rfl⟩

theorem mutators_leave_current_unchanged_witness :
    ((Camera.new ((1 : ℚ)/2, 10) ⟨1, 1⟩).translate ⟨2, 3⟩).position.current =
        (Camera.new ((1 : ℚ)/2, 10) ⟨1, 1⟩).position.current ∧
    ((Camera.new ((1 : ℚ)/2, 10) ⟨1, 1⟩).zoomResult 100 ⟨1, 1⟩).position.current =
        (Camera.new ((1 : ℚ)/2, 10) ⟨1, 1⟩).position.current ∧
    ((Camera.new ((1 : ℚ)/2, 10) ⟨1, 1⟩).zoomResult 100 ⟨1, 1⟩).zoom_factor.current =
        (Camera.new ((1 : ℚ)/2, 10) ⟨1, 1⟩).zoom_factor.current := by
  have h := mutators_leave_current_unchanged (I := Unit)
    (Camera.new ((1 : ℚ)/2, 10) ⟨1, 1⟩)
    ((Camera.new ((1 : ℚ)/2, 10) ⟨1, 1⟩).zoomResult 100 ⟨1, 1⟩)
    ⟨2, 3⟩ 100 ⟨1, 1⟩ (InterpolatedVector.new_zeroed ()) (InterpolatedScalar.new_zeroed ())
    0 0
  have hz := h.2.1 (Camera.zoom_eq_of_le (by norm_num [Camera.new]) 100 ⟨1, 1⟩)
  exact ⟨h.1.1, hz.1, hz.2.1⟩

/-- C1: `zoom(m, s)` leaves the target-space world projection of `s` unchanged:
`(s - position.target) / zoom_factor.target` is the same before and after a
successful call, for positive `zoom_factor.target` and a positive range lower
bound (so the clamped zoom factor is nonzero), including when the clamp
truncates the applied multiplier. -/
theorem zoom_anchor_point_fixed {K : Type} [LinearOrderedField K] (c c' : Camera K)
    (m : K) (s : Vec2 K) (hz : 0 < c.zoom_factor.target) (hlo : 0 < c.zoom_range.1)
    (h : c.zoom m s = some c') :
    (s - c'.position.target).sdiv c'.zoom_factor.target
      = (s - c.position.target).sdiv c.zoom_factor.target := by
  obtain ⟨hle, rfl⟩ := Camera.zoom_some_elim h
  have hnz : 0 < glmClamp (c.zoom_factor.target * m) c.zoom_range.1 c.zoom_range.2 :=
    glmClamp_pos hlo hle _
  ext <;>
    rw [Camera.zoomResult_position_target, Camera.zoomResult_zoom_target] <;>
    simp only [Vec2.sdiv_x, Vec2.sdiv_y, Vec2.sub_x, Vec2.sub_y, Vec2.add_x, Vec2.add_y,
      Vec2.smul_x, Vec2.smul_y] <;>
    field_simp <;>
    ring

theorem zoom_anchor_point_fixed_witness :
    (0 < (Camera.new ((1 : ℚ)/2, 10) ⟨1, 1⟩).zoom_factor.target ∧
      0 < (Camera.new ((1 : ℚ)/2, 10) ⟨1, 1⟩).zoom_range.1) ∧
    ((⟨1, 1⟩ - ((Camera.new ((1 : ℚ)/2, 10) ⟨1, 1⟩).zoomResult 100 ⟨1, 1⟩).position.target).sdiv
        ((Camera.new ((1 : ℚ)/2, 10) ⟨1, 1⟩).zoomResult 100 ⟨1, 1⟩).zoom_factor.target
      = (⟨1, 1⟩ - (Camera.new ((1 : ℚ)/2, 10) ⟨1, 1⟩).position.target).sdiv
          (Camera.new ((1 : ℚ)/2, 10) ⟨1, 1⟩).zoom_factor.target) :=
  ⟨⟨by norm_num [Camera.new, InterpolatedScalar.new], by norm_num [Camera.new]⟩,
    zoom_anchor_point_fixed (Camera.new ((1 : ℚ)/2, 10) ⟨1, 1⟩)
      ((Camera.new ((1 : ℚ)/2, 10) ⟨1, 1⟩).zoomResult 100 ⟨1, 1⟩) 100 ⟨1, 1⟩
      (by norm_num [Camera.new, InterpolatedScalar.new])
      (by norm_num [Camera.new])
      (Camera.zoom_eq_of_le (by norm_num [Camera.new]) 100 ⟨1, 1⟩)⟩

/-- C10: a unit multiplier with the zoom target already inside the range is an
identity operation on both `zoom_factor.target` and `position.target`. -/
theorem zoom_unit_multiplier_identity {K : Type} [LinearOrderedField K]
    (c c' : Camera K) (s : Vec2 K) (hz : 0 < c.zoom_factor.target)
    (hlo : c.zoom_range.1 ≤ c.zoom_factor.target)
    (hhi : c.zoom_factor.target ≤ c.zoom_range.2)
    (h : c.zoom 1 s = some c') :
    c'.zoom_factor.target = c.zoom_factor.target ∧
    c'.position.target = c.position.target := by
  obtain ⟨hle, rfl⟩ := Camera.zoom_some_elim h
  have hcl : glmClamp (c.zoom_factor.target * 1) c.zoom_range.1 c.zoom_range.2
      = c.zoom_factor.target := by
    unfold glmClamp
    rw [mul_one]
    split_ifs <;> first | rfl | linarith
  constructor
  · rw [Camera.zoomResult_zoom_target, hcl]
  · rw [Camera.zoomResult_position_target, hcl, div_self (ne_of_gt hz)]
    ext <;> simp

theorem zoom_unit_multiplier_identity_witness :
    (0 < (Camera.new ((1 : ℚ)/2, 10) ⟨1, 1⟩).zoom_factor.target ∧
      (Camera.new ((1 : ℚ)/2, 10) ⟨1, 1⟩).zoom_range.1 ≤
        (Camera.new ((1 : ℚ)/2, 10) ⟨1, 1⟩).zoom_factor.target ∧
      (Camera.new ((1 : ℚ)/2, 10) ⟨1, 1⟩).zoom_factor.target ≤
        (Camera.new ((1 : ℚ)/2, 10) ⟨1, 1⟩).zoom_range.2) ∧
    (((Camera.new ((1 : ℚ)/2, 10) ⟨1, 1⟩).zoomResult 1 ⟨2, 3⟩).zoom_factor.target =
        (Camera.new ((1 : ℚ)/2, 10) ⟨1, 1⟩).zoom_factor.target ∧
      ((Camera.new ((1 : ℚ)/2, 10) ⟨1, 1⟩).zoomResult 1 ⟨2, 3⟩).position.target =
        (Camera.new ((1 : ℚ)/2, 10) ⟨1, 1⟩).position.target) :=
  ⟨⟨by norm_num [Camera.new, InterpolatedScalar.new],
      by norm_num [Camera.new, InterpolatedScalar.new],
      by norm_num [Camera.new, InterpolatedScalar.new]⟩,
    zoom_unit_multiplier_identity (Camera.new ((1 : ℚ)/2, 10) ⟨1, 1⟩)
      ((Camera.new ((1 : ℚ)/2, 10) ⟨1, 1⟩).zoomResult 1 ⟨2, 3⟩) ⟨2, 3⟩
      (by norm_num [Camera.new, InterpolatedScalar.new])
      (by norm_num [Camera.new, InterpolatedScalar.new])
      (by norm_num [Camera.new, InterpolatedScalar.new])
      (Camera.zoom_eq_of_le (by norm_num [Camera.new]) 1 ⟨2, 3⟩)⟩

/-- C5: `clamp_me_daddy` is idempotent on `position.target` whenever the derived
camera-space bound is nonnegative in each component (as it is for nonnegative
`position_range` and positive current zoom). -/
theorem clamp_me_daddy_idempotent {K : Type} [LinearOrderedField K] (c : Camera K)
    (hx : 0 ≤ c.position_range.x * c.zoom_factor.current)
    (hy : 0 ≤ c.position_range.y * c.zoom_factor.current) :
    c.clamp_me_daddy.clamp_me_daddy.position.target
      = c.clamp_me_daddy.position.target := by
  ext
  · show glmClamp (glmClamp _ _ _) _ _ = glmClamp _ _ _
    exact glmClamp_idem (by simpa using neg_le_self hx) _
  · show glmClamp (glmClamp _ _ _) _ _ = glmClamp _ _ _
    exact glmClamp_idem (by simpa using neg_le_self hy) _

theorem clamp_me_daddy_idempotent_witness :
    (0 ≤ ((Camera.new ((1 : ℚ)/2, 10) ⟨1, 1⟩).translate ⟨5, 5⟩).position_range.x *
        ((Camera.new ((1 : ℚ)/2, 10) ⟨1, 1⟩).translate ⟨5, 5⟩).zoom_factor.current ∧
      0 ≤ ((Camera.new ((1 : ℚ)/2, 10) ⟨1, 1⟩).translate ⟨5, 5⟩).position_range.y *
        ((Camera.new ((1 : ℚ)/2, 10) ⟨1, 1⟩).translate ⟨5, 5⟩).zoom_factor.current) ∧
    ((Camera.new ((1 : ℚ)/2, 10) ⟨1, 1⟩).translate
          ⟨5, 5⟩).clamp_me_daddy.clamp_me_daddy.position.target
      = ((Camera.new ((1 : ℚ)/2, 10) ⟨1, 1⟩).translate ⟨5, 5⟩).clamp_me_daddy.position.target :=
  ⟨⟨by norm_num [Camera.new, Camera.translate, InterpolatedScalar.new, InterpolatedVector.new,
        InterpolatedVector.new_zeroed, InterpolatedVector.set_target],
      by norm_num [Camera.new, Camera.translate, InterpolatedScalar.new, InterpolatedVector.new,
        InterpolatedVector.new_zeroed, InterpolatedVector.set_target]⟩,
    clamp_me_daddy_idempotent ((Camera.new ((1 : ℚ)/2, 10) ⟨1, 1⟩).translate ⟨5, 5⟩)
      (by norm_num [Camera.new, Camera.translate, InterpolatedScalar.new, InterpolatedVector.new,
        InterpolatedVector.new_zeroed, InterpolatedVector.set_target])
      (by norm_num [Camera.new, Camera.translate, InterpolatedScalar.new, InterpolatedVector.new,
        InterpolatedVector.new_zeroed, InterpolatedVector.set_target])⟩

theorem Camera.applyZooms_range_invariant {K : Type} [LinearOrderedField K]
    {lo hi : K} (ops : List (K × Vec2 K)) :
    ∀ c c' : Camera K, c.zoom_range = (lo, hi) →
      lo ≤ c.zoom_factor.target → c.zoom_factor.target ≤ hi →
      c.applyZooms ops = some c' →
      c'.zoom_range = (lo, hi) ∧ lo ≤ c'.zoom_factor.target ∧ c'.zoom_factor.target ≤ hi := by
  induction ops with
  | nil =>
    intro c c' hr h1 h2 h
    simp only [Camera.applyZooms, Option.some.injEq] at h
    subst h
    exact ⟨hr, h1, h2⟩
  | cons op rest ih =>
    intro c c' hr h1 h2 h
    cases hz : c.zoom op.1 op.2 with
    | none =>
      simp only [Camera.applyZooms, hz] at h
      exact Option.noConfusion h
    | some c1 =>
      simp only [Camera.applyZooms, hz] at h
      obtain ⟨hle, rfl⟩ := Camera.zoom_some_elim hz
      have hle' : lo ≤ hi := by rw [hr] at hle; exact hle
      have hmem := glmClamp_mem hle' (c.zoom_factor.target * op.1)
      refine ih _ c' ?_ ?_ ?_ h
      · rw [Camera.zoomResult_zoom_range, hr]
      · rw [Camera.zoomResult_zoom_target, hr]
        exact hmem.1
      · rw [Camera.zoomResult_zoom_target, hr]
        exact hmem.2

/-- C2: for a camera built with `min <= max`, after any nonempty sequence of
`zoom` calls with arbitrary multipliers, `zoom_factor.target()` lies within
`zoom_range` (the universal quantification over `ops` covers every prefix of a
longer sequence, hence the invariant holds after each call). -/
theorem zoom_sequence_target_in_range {K : Type} [LinearOrderedField K]
    (lo hi : K) (pr : Vec2 K) (hle : lo ≤ hi) (ops : List (K × Vec2 K))
    (hne : ops ≠ []) (c' : Camera K)
    (h : (Camera.new (lo, hi) pr).applyZooms ops = some c') :
    lo ≤ c'.zoom_factor.target ∧ c'.zoom_factor.target ≤ hi := by
  cases ops with
  | nil => exact absurd rfl hne
  | cons op rest =>
    cases hz : (Camera.new (lo, hi) pr).zoom op.1 op.2 with
    | none =>
      simp only [Camera.applyZooms, hz] at h
      exact Option.noConfusion h
    | some c1 =>
      simp only [Camera.applyZooms, hz] at h
      obtain ⟨hle1, rfl⟩ := Camera.zoom_some_elim hz
      have hmem := glmClamp_mem hle
        ((Camera.new (lo, hi) pr).zoom_factor.target * op.1)
      exact (Camera.applyZooms_range_invariant rest _ c' rfl hmem.1 hmem.2 h).2

theorem zoom_sequence_target_in_range_witness :
    ((1 : ℚ)/2 ≤ 10 ∧ [((100 : ℚ), (⟨1, 1⟩ : Vec2 ℚ))] ≠ [] ∧
      (Camera.new ((1 : ℚ)/2, 10) ⟨1, 1⟩).applyZooms [(100, ⟨1, 1⟩)]
        = some ((Camera.new ((1 : ℚ)/2, 10) ⟨1, 1⟩).zoomResult 100 ⟨1, 1⟩)) ∧
    ((1 : ℚ)/2 ≤ ((Camera.new ((1 : ℚ)/2, 10) ⟨1, 1⟩).zoomResult 100 ⟨1, 1⟩).zoom_factor.target ∧
      ((Camera.new ((1 : ℚ)/2, 10) ⟨1, 1⟩).zoomResult 100 ⟨1, 1⟩).zoom_factor.target ≤ 10) := by
  have happ : (Camera.new ((1 : ℚ)/2, 10) ⟨1, 1⟩).applyZooms [(100, ⟨1, 1⟩)]
      = some ((Camera.new ((1 : ℚ)/2, 10) ⟨1, 1⟩).zoomResult 100 ⟨1, 1⟩) := by
    simp only [Camera.applyZooms,
      Camera.zoom_eq_of_le (c := Camera.new ((1 : ℚ)/2, 10) ⟨1, 1⟩)
        (by norm_num [Camera.new]) 100 ⟨1, 1⟩]
  refine ⟨⟨by norm_num, by simp, happ⟩, ?_⟩
  exact zoom_sequence_target_in_range ((1 : ℚ)/2) 10 ⟨1, 1⟩ (by norm_num)
    [(100, ⟨1, 1⟩)] (by simp) _ happ

/-- C3 counterexample: a linear interpolator reached from `new_zeroed` by
`set_target(10)` and `update(0.5)` (so `current = 5`, accumulated `time = 0.5`)
moves `current` to `7.5` on `update(0.0)`: `update(0.0)` does not leave `current`
unchanged for `LinearInterpolation` once the time accumulator has advanced. -/
theorem update_zero_moves_current_linear :
    (((InterpolatedScalar.new_zeroed (LinearInterpolation.new (1 : ℚ))).set_target
          10).update LinearInterpolation.interpolate ((1 : ℚ)/2)).current = 5 ∧
    ((((InterpolatedScalar.new_zeroed (LinearInterpolation.new (1 : ℚ))).set_target
          10).update LinearInterpolation.interpolate ((1 : ℚ)/2)).update
        LinearInterpolation.interpolate 0).current = 15/2 := by
  constructor <;>
    norm_num [InterpolatedScalar.new_zeroed, InterpolatedScalar.new,
      InterpolatedScalar.set_target, InterpolatedScalar.update,
      LinearInterpolation.new, LinearInterpolation.interpolate, lerp]

/-- C3 amended: `update(0.0)` leaves `current` unchanged for `ExponentialSmoothing`
in every state (scalar and vector); for `LinearInterpolation` it does so only in
states whose internal time accumulator is still zero (e.g. before any update). -/
theorem update_zero_leaves_current (K : Type) [LinearOrderedField K] :
    (∀ s : InterpolatedScalar ℝ (ExponentialSmoothing ℝ),
        (s.update ExponentialSmoothing.stepS 0).current = s.current) ∧
    (∀ v : InterpolatedVector ℝ (ExponentialSmoothing ℝ),
        (v.update ExponentialSmoothing.stepV 0).current = v.current) ∧
    (∀ s : InterpolatedScalar K (LinearInterpolation K), s.interpolator.time = 0 →
        (s.update LinearInterpolation.interpolate 0).current = s.current) ∧
    (∀ v : InterpolatedVector K (LinearInterpolation K), v.interpolator.time = 0 →
        (v.update LinearInterpolation.interpolateV 0).current = v.current) := by
  have hfac : ∀ e : ExponentialSmoothing ℝ, e.factor 0 = 0 := by
    intro e
    simp [ExponentialSmoothing.factor, zero_div, Real.rpow_zero]
  refine ⟨?_, ?_, ?_, ?_⟩
  · intro s
    simp [InterpolatedScalar.update, ExponentialSmoothing.stepS,
      ExponentialSmoothing.interpolate, hfac, lerp]
  · intro v
    ext <;>
      simp [InterpolatedVector.update, ExponentialSmoothing.stepV,
        ExponentialSmoothing.interpolateV, hfac, lerpV, lerp]
  · intro s hs
    simp [InterpolatedScalar.update, LinearInterpolation.interpolate, hs, lerp]
  · intro v hv
    ext <;>
      simp [InterpolatedVector.update, LinearInterpolation.interpolateV, hv, lerpV, lerp]

theorem update_zero_leaves_current_witness :
    ((InterpolatedScalar.new (5 : ℚ) (LinearInterpolation.new (2 : ℚ))).interpolator.time = 0) ∧
    (((InterpolatedScalar.new (5 : ℚ) (LinearInterpolation.new (2 : ℚ))).update
        LinearInterpolation.interpolate 0).current
      = (InterpolatedScalar.new (5 : ℚ) (LinearInterpolation.new (2 : ℚ))).current) :=
  ⟨rfl, (update_zero_leaves_current ℚ).2.2.1 _ rfl⟩

/-- C4 counterexample: `Camera::new` stores an empty `zoom_range` unvalidated (no
rejection at construction), and `update` on an interpolated value silently
processes a negative `dt` (here a linear interpolator advances from `current = 5`
to `10` on `update(-1)`): neither condition is rejected eagerly. -/
theorem preconditions_not_rejected :
    (Camera.new ((2 : ℚ), 1) ⟨0, 0⟩).zoom_range = ((2 : ℚ), 1) ∧
    (({ current := 5, target := 10, interpolator := { k := 1, time := 2 } } :
        InterpolatedScalar ℚ (LinearInterpolation ℚ)).update
        LinearInterpolation.interpolate (-1)).current = 10 := by
  refine ⟨rfl, ?_⟩
  norm_num [InterpolatedScalar.update, LinearInterpolation.interpolate, lerp]

/-- C4 amended: precondition checks are deferred or absent: `Camera::new` accepts
any `zoom_range` unvalidated; the precondition violation for an empty range
surfaces only when `zoom()` is called (`f32::clamp` panics, modelled as `none`);
and `update` applies the interpolation formula for every `dt`, with no
negativity check. -/
theorem precondition_checks_deferred {K : Type} [LinearOrderedField K]
    (lo hi : K) (pr : Vec2 K) (c : Camera K) (m : K) (s : Vec2 K)
    (li : InterpolatedScalar K (LinearInterpolation K)) (dt : K) :
    (Camera.new (lo, hi) pr).zoom_range = (lo, hi) ∧
    (hi < lo → c.zoom_range = (lo, hi) → c.zoom m s = none) ∧
    (li.update LinearInterpolation.interpolate dt).current
      = lerp li.current li.target (li.interpolator.k * (li.interpolator.time + dt)) := by
  refine ⟨rfl, ?_, rfl⟩
  intro hlt hr
  unfold Camera.zoom f32clamp
  rw [hr]
  rw [if_neg (not_le.mpr hlt)]
  rfl

theorem precondition_checks_deferred_witness :
    ((1 : ℚ) < 2 ∧ (Camera.new ((2 : ℚ), 1) ⟨0, 0⟩).zoom_range = ((2 : ℚ), 1)) ∧
    ((Camera.new ((2 : ℚ), 1) ⟨0, 0⟩).zoom 3 ⟨0, 0⟩ = none ∧
      (({ current := 5, target := 10, interpolator := { k := 1, time := 2 } } :
          InterpolatedScalar ℚ (LinearInterpolation ℚ)).update
          LinearInterpolation.interpolate (-1)).current
        = lerp (5 : ℚ) 10 (1 * (2 + -1))) := by
  have h := precondition_checks_deferred (2 : ℚ) 1 ⟨0, 0⟩
    (Camera.new ((2 : ℚ), 1) ⟨0, 0⟩) 3 ⟨0, 0⟩
    { current := 5, target := 10, interpolator := { k := 1, time := 2 } } (-1)
  exact ⟨⟨by norm_num, h.1⟩, h.2.1 (by norm_num) rfl, h.2.2⟩

theorem ExponentialSmoothing.factor_pos_lt_one (e : ExponentialSmoothing ℝ)
    (hL : 0 < e.length_sec) (hR : 0 < e.exp_rate) {dt : ℝ} (hdt : 0 < dt) :
    0 < e.factor dt ∧ e.factor dt < 1 := by
  have h10 : (1 : ℝ) < Real.rpow 10 e.exp_rate :=
    (Real.one_lt_rpow_iff_of_pos (by norm_num)).mpr (Or.inl ⟨by norm_num, hR⟩)
  have hb0 : (0 : ℝ) < 1 / Real.rpow 10 e.exp_rate :=
    div_pos one_pos (lt_trans one_pos h10)
  have hb1 : 1 / Real.rpow 10 e.exp_rate < 1 :=
    (div_lt_one (lt_trans one_pos h10)).mpr h10
  have hexp : 0 < dt / e.length_sec := div_pos hdt hL
  have hp0 : 0 < Real.rpow (1 / Real.rpow 10 e.exp_rate) (dt / e.length_sec) :=
    Real.rpow_pos_of_pos hb0 _
  have hp1 : Real.rpow (1 / Real.rpow 10 e.exp_rate) (dt / e.length_sec) < 1 :=
    Real.rpow_lt_one hb0.le hb1 hexp
  unfold ExponentialSmoothing.factor
  constructor <;> linarith

/-- The value of `current` after `n` repeated `update(dt)` calls of an
exponentially smoothed scalar with fixed target `g` and timestep `dt`,
starting from `c`. -/
noncomputable def ESiter (e : ExponentialSmoothing ℝ) (g dt : ℝ) : ℕ → ℝ → ℝ
  | 0, c => c
  | n + 1, c => e.interpolate (ESiter e g dt n c) g dt

/-- C6: for exponential smoothing with positive `length_sec` and `exp_rate`:
`interpolate(current, target, 0)` returns `current`; for `dt > 0` the result lies
between `current` and `target` (never overshoots); and repeated `update` calls
with fixed positive `dt` and fixed target move `current` monotonically toward
the target, never passing it. -/
theorem exponential_smoothing_monotone_approach (e : ExponentialSmoothing ℝ)
    (c g dt : ℝ) (hL : 0 < e.length_sec) (hR : 0 < e.exp_rate) (hdt : 0 < dt) :
    e.interpolate c g 0 = c ∧
    (min c g ≤ e.interpolate c g dt ∧ e.interpolate c g dt ≤ max c g) ∧
    (c ≤ g → ∀ n : ℕ, ESiter e g dt n c ≤ ESiter e g dt (n + 1) c ∧
        ESiter e g dt (n + 1) c ≤ g) ∧
    (g ≤ c → ∀ n : ℕ, ESiter e g dt (n + 1) c ≤ ESiter e g dt n c ∧
        g ≤ ESiter e g dt (n + 1) c) := by
  obtain ⟨hf0, hf1⟩ := e.factor_pos_lt_one hL hR hdt
  have hle : ∀ x : ℝ, x ≤ g → x ≤ e.interpolate x g dt ∧ e.interpolate x g dt ≤ g := by
    intro x hx
    unfold ExponentialSmoothing.interpolate lerp
    constructor <;>
      nlinarith [mul_nonneg (sub_nonneg.mpr hx) hf0.le,
        mul_nonneg (sub_nonneg.mpr hx) (sub_nonneg.mpr hf1.le)]
  have hge : ∀ x : ℝ, g ≤ x → e.interpolate x g dt ≤ x ∧ g ≤ e.interpolate x g dt := by
    intro x hx
    unfold ExponentialSmoothing.interpolate lerp
    constructor <;>
      nlinarith [mul_nonneg (sub_nonneg.mpr hx) hf0.le,
        mul_nonneg (sub_nonneg.mpr hx) (sub_nonneg.mpr hf1.le)]
  refine ⟨?_, ?_, ?_, ?_⟩
  · simp [ExponentialSmoothing.interpolate, ExponentialSmoothing.factor, zero_div,
      Real.rpow_zero, lerp]
  · rcases le_total c g with h | h
    · rw [min_eq_left h, max_eq_right h]
      exact hle c h
    · rw [min_eq_right h, max_eq_left h]
      exact ⟨(hge c h).2, (hge c h).1⟩
  · intro hcg n
    induction n with
    | zero => simpa [ESiter] using hle c hcg
    | succ n ih => simpa [ESiter] using hle _ ih.2
  · intro hgc n
    induction n with
    | zero => simpa [ESiter] using hge c hgc
    | succ n ih => simpa [ESiter] using hge _ ih.2

theorem exponential_smoothing_monotone_approach_witness :
    (0 < (ExponentialSmoothing.new (1 : ℝ) 1).length_sec ∧
      0 < (ExponentialSmoothing.new (1 : ℝ) 1).exp_rate ∧ (0 : ℝ) < 1) ∧
    ((ExponentialSmoothing.new (1 : ℝ) 1).interpolate 0 1 0 = 0 ∧
      (min (0 : ℝ) 1 ≤ (ExponentialSmoothing.new (1 : ℝ) 1).interpolate 0 1 1 ∧
        (ExponentialSmoothing.new (1 : ℝ) 1).interpolate 0 1 1 ≤ max (0 : ℝ) 1) ∧
      (∀ n : ℕ, ESiter (ExponentialSmoothing.new (1 : ℝ) 1) 1 1 n 0
          ≤ ESiter (ExponentialSmoothing.new (1 : ℝ) 1) 1 1 (n + 1) 0 ∧
        ESiter (ExponentialSmoothing.new (1 : ℝ) 1) 1 1 (n + 1) 0 ≤ 1)) := by
  have h := exponential_smoothing_monotone_approach (ExponentialSmoothing.new (1 : ℝ) 1)
    0 1 1 (by norm_num [ExponentialSmoothing.new]) (by norm_num [ExponentialSmoothing.new])
    (by norm_num)
  exact ⟨⟨by norm_num [ExponentialSmoothing.new], by norm_num [ExponentialSmoothing.new],
    by norm_num⟩, h.1, h.2.1, h.2.2.1 (by norm_num)⟩

end Zoomer
